import Mathlib

/-!
# PDFGraphicsToSVG: a verification development of `main.go`

The program lists the PDF files of a directory, converts each one with the
external tool `pdf2svg`, deletes the source on success and reports the
produced SVG paths.

Go strings are modelled as lists of Unicode code points (`GoString`), that is,
as valid UTF-8 text.  The standard-library scans used by the program look only
for the ASCII bytes `.` and `/`, which occur in UTF-8 only as those characters,
so a scan over code points visits them exactly as the byte scan does.
-/

set_option autoImplicit false

namespace PDFGraphicsToSVG

/-- A Go string, as the list of its code points. -/
abbrev GoString := List Char

/-! ## Standard-library string functions used by the program -/

/-- Go `strings.HasSuffix(s, suffix)`:
`len(s) >= len(suffix) && s[len(s)-len(suffix):] == suffix`. -/
def HasSuffix (s suffix : GoString) : Bool :=
  decide (s.length ≥ suffix.length) && (s.drop (s.length - suffix.length) == suffix)

/-- Go `strings.TrimSuffix(s, suffix)`: `s[:len(s)-len(suffix)]` when `s` has the
suffix, otherwise `s` unchanged. -/
def TrimSuffix (s suffix : GoString) : GoString :=
  if HasSuffix s suffix then s.take (s.length - suffix.length) else s

/-- Go `os.IsPathSeparator` on Unix. -/
def IsPathSeparator (c : Char) : Bool := c == '/'

/-- The loop of Go `filepath.Ext`:
`for i := len(path) - 1; i >= 0 && !os.IsPathSeparator(path[i]); i--`, returning
`path[i:]` at the first dot met.  The argument is `i + 1`. -/
def extLoop (path : GoString) : Nat → GoString
  | 0 => []
  | i + 1 =>
    match path.get? i with
    | none => []
    | some c =>
      if IsPathSeparator c then []
      else if c == '.' then path.drop i
      else extLoop path i

/-- Go `filepath.Ext(path)`: the suffix beginning at the final dot in the final
element of `path`; empty if there is no dot. -/
def Ext (path : GoString) : GoString := extLoop path path.length

/-- Go `unicode.ToLower(r)`: ASCII letters are shifted by `'a' - 'A'`, other ASCII
runes are returned unchanged, and every rune above `MaxASCII` is looked up in the
Unicode case table, which is the parameter `table`. -/
def unicodeToLower (table : Char → Char) (r : Char) : Char :=
  if r.toNat ≤ 127 then
    if 'A'.toNat ≤ r.toNat ∧ r.toNat ≤ 'Z'.toNat then Char.ofNat (r.toNat + ('a'.toNat - 'A'.toNat))
    else r
  else table r

/-- Go `strings.ToLower(s)`: every rune mapped by `unicode.ToLower` (the ASCII
fast path of the library computes the same string). -/
def ToLower (table : Char → Char) (s : GoString) : GoString :=
  s.map (unicodeToLower table)

/-- The extension appended by the converter wrapper. -/
def svgExt : GoString := ".svg".toList

/-- The extension looked for by the enumerator. -/
def pdfExt : GoString := ".pdf".toList

/-- First line of `convertPDFToSVG`:
`svgPath := strings.TrimSuffix(pdfPath, filepath.Ext(pdfPath)) + ".svg"`. -/
def svgPathOf (pdfPath : GoString) : GoString :=
  TrimSuffix pdfPath (Ext pdfPath) ++ svgExt

/-- The final element of a path in the sense of `filepath.Ext`: what follows the
last path separator (the whole path when it has none). -/
def lastElement (path : GoString) : GoString :=
  (path.reverse.takeWhile (fun c => !IsPathSeparator c)).reverse

/-- The test `r+1 == n || os.IsPathSeparator(path[r+1])` of `filepath.Clean`, on
the input that follows position `r`. -/
def endsElement (rest : GoString) : Bool :=
  match rest with
  | [] => true
  | x :: _ => IsPathSeparator x

/-- The inner loop of the `..` case of `filepath.Clean`, after the first `out.w--`:
`for out.w > dotdot && !os.IsPathSeparator(out.index(out.w)) { out.w-- }`.
The argument is the current `out.w`, the result the final one. -/
def backtrackLoop (buf : GoString) (dotdot : Nat) : Nat → Nat
  | 0 => 0
  | w + 1 =>
    if w + 1 > dotdot ∧ buf.get? (w + 1) ≠ some '/' then backtrackLoop buf dotdot w
    else w + 1

/-- The main loop `for r < n` of Go `filepath.Clean` (Unix).  The second list is
`path[r:]`, `out` holds the `out.w` bytes written so far, and the first argument
bounds the number of iterations (each one consumes at least one byte). -/
def cleanLoop (rooted : Bool) : Nat → GoString → GoString → Nat → GoString
  | 0, _, out, _ => out
  | _ + 1, [], out, _ => out
  | fuel + 1, c :: rest, out, dotdot =>
    if IsPathSeparator c then
      -- empty path element
      cleanLoop rooted fuel rest out dotdot
    else if c == '.' && endsElement rest then
      -- . element
      cleanLoop rooted fuel rest out dotdot
    else if c == '.' && rest.head? == some '.' && endsElement rest.tail then
      -- .. element: remove to last separator
      if out.length > dotdot then
        cleanLoop rooted fuel rest.tail
          (out.take (backtrackLoop out dotdot (out.length - 1))) dotdot
      else if !rooted then
        let out1 := (if out.length > 0 then out ++ ['/'] else out) ++ ['.', '.']
        cleanLoop rooted fuel rest.tail out1 out1.length
      else
        cleanLoop rooted fuel rest.tail out dotdot
    else
      -- real path element: add slash if needed, copy element
      let out1 :=
        if (rooted && out.length != 1) || (!rooted && out.length != 0) then out ++ ['/']
        else out
      cleanLoop rooted fuel ((c :: rest).dropWhile (fun x => !IsPathSeparator x))
        (out1 ++ (c :: rest).takeWhile (fun x => !IsPathSeparator x)) dotdot

/-- Go `filepath.Clean(path)` on Unix (no volume name, `FromSlash` is the identity). -/
def Clean (path : GoString) : GoString :=
  match path with
  | [] => ['.']
  | c :: rest =>
    let rooted := IsPathSeparator c
    let out :=
      if rooted then cleanLoop true path.length rest ['/'] 1
      else cleanLoop false path.length path [] 0
    if out.length == 0 then ['.'] else out

/-- Go `filepath.Join(dir, name)` on Unix: the elements from the first non-empty one
on are joined with the separator and the result is cleaned; empty when both are. -/
def Join (dir name : GoString) : GoString :=
  if dir != [] then Clean (dir ++ '/' :: name)
  else if name != [] then Clean name
  else []

/-! ## Operating-system results -/

/-- Classes of error told apart by the program (`os.IsNotExist` or not). -/
inductive ErrKind
  | notExist
  | permission
  | other
  deriving DecidableEq, Repr

/-- A Go `error` value returned by the operating system, with its `Error()` text. -/
structure GoError where
  kind : ErrKind
  text : GoString
  deriving DecidableEq, Repr

/-- The part of `os.FileInfo` the program reads: `Name()` and `IsDir()`. -/
structure FileInfo where
  name : GoString
  isDir : Bool
  deriving DecidableEq, Repr

/-- What `os.Stat` returns: either a file info and a nil error, or a nil file info
and an error. -/
abbrev StatReturn := Except GoError FileInfo

/-- The `info` component of `info, err := os.Stat(path)`; `none` is Go `nil`. -/
def StatReturn.info (r : StatReturn) : Option FileInfo :=
  match r with
  | .ok fi => some fi
  | .error _ => none

/-- The `err` component of `info, err := os.Stat(path)`; `none` is Go `nil`. -/
def StatReturn.err (r : StatReturn) : Option GoError :=
  match r with
  | .ok _ => none
  | .error e => some e

/-- Go `os.IsNotExist(err)`. -/
def IsNotExist (err : Option GoError) : Bool :=
  match err with
  | some e => e.kind == ErrKind.notExist
  | none => false

/-- A Go run-time panic. -/
inductive Panic
  | nilDereference
  deriving DecidableEq, Repr

/-! ## The program -/

/-- Go `dirExists`: `false` on a not-exist error, otherwise `info.IsDir()`, which
dereferences `info` whatever `err` is. -/
def dirExists (stat : StatReturn) : Except Panic Bool :=
  if IsNotExist stat.err then .ok false
  else
    match stat.info with
    | none => .error Panic.nilDereference
    | some info => .ok info.isDir

/-- Go `fileExists`: `!os.IsNotExist(err)`. -/
def fileExists (stat : StatReturn) : Bool := !IsNotExist stat.err

/-- The test of the loop of `listPDFFiles`. -/
def isPDFEntry (table : Char → Char) (file : FileInfo) : Bool :=
  !file.isDir && HasSuffix (ToLower table file.name) pdfExt

/-- Go `listPDFFiles`; `readDir` is what `ioutil.ReadDir(dirPath)` returned. -/
def listPDFFiles (table : Char → Char) (dirPath : GoString)
    (readDir : Except GoError (List FileInfo)) : Except GoError (List GoString) :=
  match readDir with
  | .error err => .error err
  | .ok files =>
    .ok (files.foldl
      (fun pdfFiles file =>
        if isPDFEntry table file then pdfFiles ++ [Join dirPath file.name] else pdfFiles)
      [])

/-- A call made to the operating system, in the order the program makes them. -/
inductive Call
  | stat (path : GoString)
  | readDir (path : GoString)
  | run (tool input output : GoString)
  | remove (path : GoString)
  deriving DecidableEq, Repr

/-- What the operating system answers for one job: the result of `os.Stat` on the
source, of `cmd.Run()` (`none` is a nil error: the tool was launched and exited
with status zero) and of `os.Remove` on the source (`none` is a nil error). -/
structure Outcome where
  stat : StatReturn
  run : Option GoError
  remove : Option GoError

/-- The observable state of a run: the paths present in the file system, the lines
written to standard output, the calls made so far, the values sent on the
`results` channel, and the number of worker goroutines started. -/
structure State where
  files : List GoString
  stdout : List GoString
  calls : List Call
  results : List GoString
  workers : Nat
  deriving DecidableEq, Repr

/-- The state at program start, over the file system `files`. -/
def State.init (files : List GoString) : State :=
  { files := files, stdout := [], calls := [], results := [], workers := 0 }

/-- One line written with `fmt.Println` or `fmt.Printf("...\n")`. -/
def State.print (s : State) (line : GoString) : State :=
  { s with stdout := s.stdout ++ [line] }

/-- Record one call to the operating system. -/
def State.call (s : State) (c : Call) : State :=
  { s with calls := s.calls ++ [c] }

/-- The name of the external converter. -/
def pdf2svg : GoString := "pdf2svg".toList

/-- Go `convertPDFToSVG`: derives the output path, runs `pdf2svg pdfPath svgPath`,
and returns the derived path, or `""` after printing the error when `cmd.Run()`
failed.  A successful run of the tool leaves its output file in the file system;
the tool touches no other path. -/
def convertPDFToSVG (s : State) (pdfPath : GoString) (run : Option GoError) :
    State × GoString :=
  let svgPath := svgPathOf pdfPath
  let s1 := s.call (Call.run pdf2svg pdfPath svgPath)
  match run with
  | some err => (s1.print ("Error: ".toList ++ err.text), [])
  | none =>
    ({ s1 with files := if svgPath ∈ s1.files then s1.files else s1.files ++ [svgPath] },
      svgPath)

/-- The body of the loop `for pdfPath := range jobs` of `pdfToSVGWorker`, for one
received job and the answers of the operating system for it.  A successful
`os.Remove` takes the path out of the file system, a failed one changes nothing. -/
def workerStep (s : State) (job : GoString × Outcome) : State :=
  let pdfPath := job.1
  let s1 := s.call (Call.stat pdfPath)
  if !fileExists job.2.stat then
    s1.print ("Error: File not found: ".toList ++ pdfPath)
  else
    let r := convertPDFToSVG s1 pdfPath job.2.run
    let svgPath := r.2
    if svgPath == [] then
      r.1.print ("Error: Conversion failed for ".toList ++ pdfPath)
    else
      let s3 := r.1.call (Call.remove pdfPath)
      match job.2.remove with
      | some err =>
        s3.print ("Error: Failed to remove PDF file ".toList ++ pdfPath ++ ": ".toList ++ err.text)
      | none =>
        { s3 with files := s3.files.filter (fun f => f != pdfPath),
                  results := s3.results ++ [svgPath] }

/-- Go `pdfToSVGWorker`, for the jobs this worker receives from the channel, in the
order it receives them. -/
def pdfToSVGWorker (s : State) (jobs : List (GoString × Outcome)) : State :=
  jobs.foldl workerStep s

/-- The line printed by the coordinator for one drained result. -/
def successLine (svgPath : GoString) : GoString :=
  "Successfully converted ".toList ++ TrimSuffix svgPath svgExt ++ " to ".toList ++ svgPath

/-- Go `processPDFsConcurrently`, run in one of its schedules: the `numWorkers`
workers are started, the first one receives every job in queue order, the others
find the queue closed and empty, and the coordinator drains the results after
the workers have finished.  `outcomes` gives the answers of the operating system
for each path. -/
def processPDFsConcurrently (s : State) (pdfFiles : List GoString) (numWorkers : Nat)
    (outcomes : GoString → Outcome) : State :=
  let s1 := { s with workers := s.workers + numWorkers }
  let s2 :=
    if numWorkers == 0 then s1
    else pdfToSVGWorker s1 (pdfFiles.map (fun f => (f, outcomes f)))
  (s2.results.drop s.results.length).foldl (fun st svgPath => st.print (successLine svgPath)) s2

/-- How the process ends: `os.Exit(code)` or falling off `main` (code 0), or a
run-time panic. -/
inductive Termination
  | exit (code : Nat)
  | panicked (p : Panic)
  deriving DecidableEq, Repr

/-- The last line printed by a run that reaches the end of `main`. -/
def finalLine : GoString := "All PDF files have been converted to SVG.".toList

/-- Go `main`, as a function of `os.Args`, of what `os.Stat` and `ioutil.ReadDir`
return for the directory, and of the answers of the operating system for each
job, from a start state. -/
def main (table : Char → Char) (args : List GoString) (statDir : StatReturn)
    (readDir : Except GoError (List FileInfo)) (outcomes : GoString → Outcome)
    (s : State) : State × Termination :=
  if args.length < 2 then
    (s.print "Usage: go run main.go /path/to/directory".toList, Termination.exit 1)
  else
    let dirPath := args.getD 1 []
    let s1 := s.call (Call.stat dirPath)
    match dirExists statDir with
    | .error p => (s1, Termination.panicked p)
    | .ok false =>
      (s1.print ("Error: Directory not found: ".toList ++ dirPath), Termination.exit 1)
    | .ok true =>
      let s2 := s1.call (Call.readDir dirPath)
      match listPDFFiles table dirPath readDir with
      | .error err => (s2.print ("Error: ".toList ++ err.text), Termination.exit 1)
      | .ok fileList =>
        let numWorkers := fileList.length
        if numWorkers == 0 then
          (s2.print "No PDF files found in the directory.".toList, Termination.exit 1)
        else
          ((processPDFsConcurrently s2 fileList numWorkers outcomes).print finalLine,
            Termination.exit 0)

/-! ## Vocabulary of the properties -/

/-- A job goes through every step: the source is reported present, the converter
succeeds and the deletion succeeds. -/
def jobOk (o : Outcome) : Bool :=
  fileExists o.stat && o.run.isNone && o.remove.isNone

/-- The conversion of a job succeeded: the source was reported present and the
converter exited successfully. -/
def conversionSucceeded (o : Outcome) : Bool :=
  fileExists o.stat && o.run.isNone

/-- The start-up conditions under which `main` gives up: the directory argument is
missing, the directory check answers `false`, the directory cannot be read, or no
matching file is found. -/
def StartupFailure (table : Char → Char) (args : List GoString) (dirCheck : Bool)
    (readDir : Except GoError (List FileInfo)) : Prop :=
  args.length < 2 ∨ dirCheck = false ∨ (∃ e, readDir = .error e) ∨
    listPDFFiles table (args.getD 1 []) readDir = .ok []

/-- The paths of the existence checks among the calls, in order. -/
def statPaths (calls : List Call) : List GoString :=
  calls.filterMap (fun c => match c with
    | Call.stat path => some path
    | _ => none)

/-- The call starts the converter or removes a file. -/
def Call.isWork (c : Call) : Bool :=
  match c with
  | Call.run _ _ _ => true
  | Call.remove _ => true
  | _ => false

/-- A case table for the examples: the Kelvin sign lowers to `k`, the capital `É`
to `é`, every other rune above ASCII to itself. -/
def sampleTable (c : Char) : Char :=
  if c = 'K' then 'k' else if c = 'É' then 'é' else c

/-- The error of a stat call refused for lack of permission (`EACCES`). -/
def permissionDenied : GoError :=
  { kind := ErrKind.permission, text := "permission denied".toList }

/-- Answers of the operating system for a job that goes through. -/
def okOutcome : Outcome :=
  { stat := .ok { name := [], isDir := false }, run := none, remove := none }

/-- Answers for a job whose source has vanished. -/
def missingOutcome : Outcome :=
  { stat := .error { kind := ErrKind.notExist, text := "no such file or directory".toList },
    run := none, remove := none }

/-- Answers for a job whose converter exits with a non-zero status. -/
def failedRunOutcome : Outcome :=
  { stat := .ok { name := [], isDir := false },
    run := some { kind := ErrKind.other, text := "exit status 1".toList }, remove := none }

/-- Answers for a job whose converter succeeds and whose deletion is refused. -/
def failedRemoveOutcome : Outcome :=
  { stat := .ok { name := [], isDir := false }, run := none,
    remove := some { kind := ErrKind.permission, text := "permission denied".toList } }

/-! ## Facts about the string functions -/

theorem HasSuffix_append (a b : GoString) : HasSuffix (a ++ b) b = true := by
  simp [HasSuffix]

theorem HasSuffix_nil (s : GoString) : HasSuffix s [] = true := by
  simp [HasSuffix]

theorem HasSuffix_iff (s suffix : GoString) :
    HasSuffix s suffix = true ↔ ∃ a, s = a ++ suffix := by
  constructor
  · intro h
    simp only [HasSuffix, Bool.and_eq_true, decide_eq_true_eq, beq_iff_eq] at h
    refine ⟨s.take (s.length - suffix.length), ?_⟩
    conv_lhs => rw [← List.take_append_drop (s.length - suffix.length) s]
    rw [h.2]
  · rintro ⟨a, rfl⟩
    exact HasSuffix_append a suffix

theorem TrimSuffix_append (a b : GoString) : TrimSuffix (a ++ b) b = a := by
  simp [TrimSuffix, HasSuffix_append]

theorem TrimSuffix_nil (s : GoString) : TrimSuffix s [] = s := by
  simp [TrimSuffix, HasSuffix_nil]

/-- Below a dot-free, separator-free tail the scan of `filepath.Ext` keeps going. -/
theorem extLoop_skip (a b : GoString) (hb : ∀ c ∈ b, c ≠ '.' ∧ c ≠ '/') :
    ∀ k, k ≤ b.length → extLoop (a ++ b) (a.length + k) = extLoop (a ++ b) a.length := by
  intro k
  induction k with
  | zero => intro _; rfl
  | succ k ih =>
    intro hk
    have hk' : k < b.length := hk
    have hget : (a ++ b).get? (a.length + k) = some (b.get ⟨k, hk'⟩) := by
      rw [List.get?_eq_getElem?, List.getElem?_append_right (by omega)]
      simp [List.getElem?_eq_getElem hk']
    have hmem : b.get ⟨k, hk'⟩ ∈ b := List.get_mem b k hk'
    obtain ⟨h1, h2⟩ := hb _ hmem
    rw [← Nat.add_assoc, extLoop, hget]
    simp only [IsPathSeparator, beq_iff_eq, h1, h2, if_false]
    exact ih (by omega)

theorem extLoop_at (a : GoString) (c : Char) (b : GoString) :
    extLoop (a ++ c :: b) (a.length + 1) =
      if IsPathSeparator c then [] else if c == '.' then c :: b
      else extLoop (a ++ c :: b) a.length := by
  have hget : (a ++ c :: b).get? a.length = some c := by
    rw [List.get?_eq_getElem?, List.getElem?_append_right (le_refl _)]
    simp
  have hdrop : (a ++ c :: b).drop a.length = c :: b := by simp
  rw [extLoop, hget, hdrop]

theorem Ext_dot (pre t : GoString) (ht : ∀ c ∈ t, c ≠ '.' ∧ c ≠ '/') :
    Ext (pre ++ '.' :: t) = '.' :: t := by
  have h := extLoop_skip (pre ++ ['.']) t ht t.length (le_refl _)
  have e : pre ++ '.' :: t = (pre ++ ['.']) ++ t := by simp
  unfold Ext
  rw [e, List.length_append, h, ← e, List.length_append, List.length_singleton, extLoop_at]
  simp [IsPathSeparator]

theorem Ext_nodot (d t : GoString) (ht : ∀ c ∈ t, c ≠ '.' ∧ c ≠ '/')
    (hd : d = [] ∨ ∃ e, d = e ++ ['/']) : Ext (d ++ t) = [] := by
  have h := extLoop_skip d t ht t.length (le_refl _)
  unfold Ext
  rw [List.length_append, h]
  rcases hd with rfl | ⟨e, rfl⟩
  · rfl
  · have e2 : e ++ ['/'] ++ t = e ++ '/' :: t := by simp
    rw [e2, List.length_append, List.length_singleton, extLoop_at]
    simp [IsPathSeparator]

theorem lastElement_split (path : GoString) :
    ∃ d, path = d ++ lastElement path ∧ (d = [] ∨ ∃ e, d = e ++ ['/']) := by
  refine ⟨(path.reverse.dropWhile (fun c => !IsPathSeparator c)).reverse, ?_, ?_⟩
  · unfold lastElement
    rw [← List.reverse_append, List.takeWhile_append_dropWhile, List.reverse_reverse]
  · generalize path.reverse = r
    induction r with
    | nil => left; rfl
    | cons c r ih =>
      by_cases hc : IsPathSeparator c = true
      · right
        refine ⟨r.reverse, ?_⟩
        have hc' : c = '/' := by simpa [IsPathSeparator] using hc
        subst hc'
        simp [List.dropWhile, IsPathSeparator]
      · simpa [List.dropWhile, hc] using ih

theorem lastElement_no_sep (path : GoString) : ∀ c ∈ lastElement path, c ≠ '/' := by
  intro c hc
  unfold lastElement at hc
  rw [List.mem_reverse] at hc
  have := List.mem_takeWhile_imp hc
  simpa [IsPathSeparator] using this

/-- The result of `filepath.Ext` is a suffix of its argument. -/
theorem extLoop_suffix (path : GoString) : ∀ i, ∃ a, path = a ++ extLoop path i := by
  intro i
  induction i with
  | zero => exact ⟨path, by simp [extLoop]⟩
  | succ i ih =>
    rw [extLoop]
    cases path.get? i with
    | none => exact ⟨path, by simp⟩
    | some c =>
      dsimp only
      split
      · exact ⟨path, by simp⟩
      · split
        · exact ⟨path.take i, (List.take_append_drop i path).symm⟩
        · exact ih

theorem TrimSuffix_Ext_append (path : GoString) :
    TrimSuffix path (Ext path) ++ Ext path = path := by
  obtain ⟨a, ha⟩ := extLoop_suffix path path.length
  have h : TrimSuffix path (Ext path) = a := by
    unfold Ext
    conv_lhs => arg 1; rw [ha]
    exact TrimSuffix_append a _
  rw [h]
  exact ha.symm

theorem svgPathOf_ne_nil (path : GoString) : svgPathOf path ≠ [] := by
  simp [svgPathOf, svgExt]

/-- An ASCII dot is the lower case of no other rune, provided the case table sends
no rune above ASCII to it. -/
theorem unicodeToLower_eq_dot (table : Char → Char)
    (hT : ∀ c : Char, 127 < c.toNat → table c ≠ '.') (c : Char)
    (h : unicodeToLower table c = '.') : c = '.' := by
  unfold unicodeToLower at h
  split at h
  · split at h
    · rename_i hu
      obtain ⟨h1, h2⟩ := hu
      have h1' : 65 ≤ c.toNat := h1
      have h2' : c.toNat ≤ 90 := h2
      exfalso
      generalize c.toNat = n at h h1' h2'
      interval_cases n <;> exact absurd h (by decide)
    · exact h
  · rename_i hc
    exact absurd h (hT c (by omega))

theorem unicodeToLower_dot (table : Char → Char) : unicodeToLower table '.' = '.' := by
  rfl

theorem unicodeToLower_sep (table : Char → Char) : unicodeToLower table '/' = '/' := by
  rfl

/-- A name whose lower case ends in `.pdf` ends in a dot followed by three runes
that are neither a dot nor a separator. -/
theorem lower_pdf_suffix (table : Char → Char)
    (hT : ∀ c : Char, 127 < c.toNat → table c ≠ '.') (e : GoString)
    (h : HasSuffix (ToLower table e) pdfExt = true) :
    ∃ a t, e = a ++ '.' :: t ∧ t.length = 3 ∧ ∀ c ∈ t, c ≠ '.' ∧ c ≠ '/' := by
  obtain ⟨b, hb⟩ := (HasSuffix_iff _ _).1 h
  unfold ToLower at hb
  obtain ⟨a, l, rfl, -, hl⟩ := List.map_eq_append_iff.1 hb
  have hp : pdfExt = ['.', 'p', 'd', 'f'] := rfl
  rw [hp] at hl
  obtain ⟨c0, l0, rfl, h0, hl0⟩ := List.map_eq_cons_iff.1 hl
  obtain ⟨c1, l1, rfl, h1, hl1⟩ := List.map_eq_cons_iff.1 hl0
  obtain ⟨c2, l2, rfl, h2, hl2⟩ := List.map_eq_cons_iff.1 hl1
  obtain ⟨c3, l3, rfl, h3, hl3⟩ := List.map_eq_cons_iff.1 hl2
  have hl3' : l3 = [] := List.map_eq_nil_iff.1 hl3
  subst hl3'
  · have e0 := unicodeToLower_eq_dot table hT c0 h0
    subst e0
    refine ⟨a, [c1, c2, c3], rfl, rfl, ?_⟩
    intro c hc
    simp only [List.mem_cons, List.mem_singleton, List.not_mem_nil, or_false] at hc
    constructor
    · rintro rfl
      rcases hc with rfl | rfl | rfl
      · rw [unicodeToLower_dot] at h1; exact absurd h1 (by decide)
      · rw [unicodeToLower_dot] at h2; exact absurd h2 (by decide)
      · rw [unicodeToLower_dot] at h3; exact absurd h3 (by decide)
    · rintro rfl
      rcases hc with rfl | rfl | rfl
      · rw [unicodeToLower_sep] at h1; exact absurd h1 (by decide)
      · rw [unicodeToLower_sep] at h2; exact absurd h2 (by decide)
      · rw [unicodeToLower_sep] at h3; exact absurd h3 (by decide)

/-- The derived output path of a path whose final element ends, in lower case, in
`.pdf`: the last four runes are replaced by `.svg`. -/
theorem svgPathOf_pdf (table : Char → Char)
    (hT : ∀ c : Char, 127 < c.toNat → table c ≠ '.') (path : GoString)
    (h : HasSuffix (ToLower table (lastElement path)) pdfExt = true) :
    4 ≤ path.length ∧ svgPathOf path = path.take (path.length - 4) ++ svgExt := by
  obtain ⟨a, t, he, ht3, ht⟩ := lower_pdf_suffix table hT _ h
  obtain ⟨d, hd, -⟩ := lastElement_split path
  rw [he] at hd
  have hp : path = (d ++ a) ++ '.' :: t := by rw [hd]; simp
  have hext : Ext path = '.' :: t := by
    conv_lhs => rw [hp]
    exact Ext_dot (d ++ a) t ht
  have hlen : path.length = (d ++ a).length + 4 := by
    conv_lhs => rw [hp]
    simp [ht3, Nat.add_assoc]
  have htake : path.take (path.length - 4) = d ++ a := by
    rw [hlen, Nat.add_sub_cancel]
    conv_lhs => rw [hp]
    exact List.take_left _ _
  refine ⟨by omega, ?_⟩
  unfold svgPathOf
  rw [hext, htake]
  conv_lhs => rw [hp]
  rw [TrimSuffix_append]

/-! ## `filepath.Clean` keeps a final real element -/

theorem cleanLoop_nil (rooted : Bool) (fuel : Nat) (out : GoString) (dotdot : Nat) :
    cleanLoop rooted fuel [] out dotdot = out := by
  cases fuel <;> rfl

/-- Copying an element stops at the first separator: what is left of the input
still ends with the separator that precedes the final element. -/
theorem dropWhile_before_name (name : GoString) :
    ∀ q : GoString, ∃ s, ((q ++ ['/']) ++ name).dropWhile (fun x => !IsPathSeparator x)
      = (s ++ ['/']) ++ name := by
  intro q
  induction q with
  | nil => exact ⟨[], by simp [List.dropWhile, IsPathSeparator]⟩
  | cons x q ih =>
    by_cases hx : IsPathSeparator x = true
    · exact ⟨x :: q, by simp [List.dropWhile, hx]⟩
    · obtain ⟨s, hs⟩ := ih
      refine ⟨s, ?_⟩
      simp only [Bool.not_eq_true] at hx
      simpa [List.dropWhile, hx] using hs

/-- The loop of `filepath.Clean`, started at an element boundary of an input that
ends with a real element `name`, returns a path that ends with `name`. -/
theorem cleanLoop_keeps_name (rooted : Bool) (name : GoString) (hne : name ≠ [])
    (hsep : ∀ c ∈ name, c ≠ '/') (hdot : name ≠ ['.']) (hdd : name ≠ ['.', '.']) :
    ∀ (fuel : Nat) (rem q out : GoString) (dotdot : Nat), rem.length ≤ fuel →
      rem = q ++ name → (q = [] ∨ ∃ q', q = q' ++ ['/']) →
      ∃ pre, cleanLoop rooted fuel rem out dotdot = pre ++ name := by
  intro fuel
  induction fuel with
  | zero =>
    intro rem q out dotdot hlen hrem _
    have : rem = [] := List.length_eq_zero.1 (Nat.le_zero.1 hlen)
    rw [this] at hrem
    have := (List.append_eq_nil.1 hrem.symm).2
    exact absurd this hne
  | succ fuel ih =>
    intro rem q out dotdot hlen hrem hq
    rcases hq with rfl | ⟨q', rfl⟩
    · -- the input is the final element itself
      rw [List.nil_append] at hrem
      subst hrem
      match rem, hne, hsep, hdot, hdd, hlen with
      | c :: rest, _, hsep, hdot, hdd, _ =>
        have hc : IsPathSeparator c = false := by
          have := hsep c (List.mem_cons_self _ _)
          simp [IsPathSeparator, this]
        have h2 : (c == '.' && endsElement rest) = false := by
          by_contra hcon
          simp only [Bool.not_eq_false, Bool.and_eq_true, beq_iff_eq] at hcon
          obtain ⟨rfl, he⟩ := hcon
          cases rest with
          | nil => exact hdot rfl
          | cons x r =>
            have hx : x = '/' := by simpa [endsElement, IsPathSeparator] using he
            exact hsep x (by simp) hx
        have h3 : (c == '.' && rest.head? == some '.' && endsElement rest.tail) = false := by
          by_contra hcon
          simp only [Bool.not_eq_false, Bool.and_eq_true, beq_iff_eq] at hcon
          obtain ⟨⟨rfl, hh⟩, he⟩ := hcon
          cases rest with
          | nil => simp at hh
          | cons y r =>
            have hy : y = '.' := by simpa using hh
            subst hy
            cases r with
            | nil => exact hdd rfl
            | cons x r2 =>
              have hx : x = '/' := by simpa [endsElement, IsPathSeparator] using he
              exact hsep x (by simp) hx
        have hall : ∀ x ∈ c :: rest, (fun x => !IsPathSeparator x) x = true := by
          intro x hx
          have := hsep x hx
          simp [IsPathSeparator, this]
        have htw : (c :: rest).takeWhile (fun x => !IsPathSeparator x) = c :: rest :=
          List.takeWhile_eq_self_iff.2 hall
        have hdw : (c :: rest).dropWhile (fun x => !IsPathSeparator x) = [] :=
          List.dropWhile_eq_nil_iff.2 hall
        rw [cleanLoop]
        simp only [hc, h2, h3, Bool.false_eq_true, if_false]
        rw [htw, hdw, cleanLoop_nil]
        exact ⟨_, rfl⟩
    · -- a separator still precedes the final element
      match rem, hrem, hlen with
      | [], hrem, _ =>
        have := congrArg List.length hrem
        simp only [List.length_append, List.length_cons, List.length_nil] at this
        omega
      | c :: rest, hrem, hlen =>
        have hlen' : rest.length ≤ fuel := by
          simp only [List.length_cons] at hlen
          omega
        by_cases hc : IsPathSeparator c = true
        · rw [cleanLoop]
          simp only [hc, if_true]
          cases q' with
          | nil =>
            simp only [List.nil_append, List.singleton_append, List.cons.injEq] at hrem
            exact ih rest [] out dotdot hlen' (by simp [hrem.2]) (Or.inl rfl)
          | cons x q2 =>
            simp only [List.cons_append, List.cons.injEq] at hrem
            exact ih rest (q2 ++ ['/']) out dotdot hlen' (by simp [hrem.2])
              (Or.inr ⟨q2, rfl⟩)
        · cases q' with
          | nil =>
            simp only [List.nil_append, List.singleton_append, List.cons.injEq] at hrem
            exact absurd (by simp [IsPathSeparator, hrem.1]) hc
          | cons x q2 =>
            simp only [List.cons_append, List.cons.injEq] at hrem
            obtain ⟨hcx, hrest⟩ := hrem
            subst hcx
            have hrest' : rest = (q2 ++ ['/']) ++ name := by simp [hrest]
            simp only [Bool.not_eq_true] at hc
            rw [cleanLoop]
            simp only [hc, Bool.false_eq_true, if_false]
            by_cases h2 : (c == '.' && endsElement rest) = true
            · simp only [h2, if_true]
              exact ih rest (q2 ++ ['/']) out dotdot hlen' hrest' (Or.inr ⟨q2, rfl⟩)
            · simp only [h2, if_false]
              by_cases h3 : (c == '.' && rest.head? == some '.' && endsElement rest.tail) = true
              · simp only [h3, if_true]
                have htail : ∃ q3, rest.tail = (q3 ++ ['/']) ++ name := by
                  cases q2 with
                  | nil =>
                    exfalso
                    rw [hrest'] at h3
                    simp at h3
                  | cons y q3 => exact ⟨q3, by rw [hrest']; simp⟩
                obtain ⟨q3, hq3⟩ := htail
                have hl3 : rest.tail.length ≤ fuel := by
                  have := List.length_tail rest
                  omega
                by_cases ho : out.length > dotdot
                · rw [if_pos ho]
                  exact ih _ (q3 ++ ['/']) _ _ hl3 hq3 (Or.inr ⟨q3, rfl⟩)
                · rw [if_neg ho]
                  by_cases hr : (!rooted) = true
                  · rw [if_pos hr]
                    exact ih _ (q3 ++ ['/']) _ _ hl3 hq3 (Or.inr ⟨q3, rfl⟩)
                  · rw [if_neg hr]
                    exact ih _ (q3 ++ ['/']) _ _ hl3 hq3 (Or.inr ⟨q3, rfl⟩)
              · simp only [h3, if_false]
                obtain ⟨s, hs⟩ := dropWhile_before_name name q2
                have hdw : (c :: rest).dropWhile (fun x => !IsPathSeparator x)
                    = (s ++ ['/']) ++ name := by
                  rw [List.dropWhile_cons]
                  simp only [hc, Bool.not_false, if_true]
                  rw [hrest']
                  exact hs
                have hl4 : ((c :: rest).dropWhile (fun x => !IsPathSeparator x)).length
                    ≤ fuel := by
                  rw [List.dropWhile_cons]
                  simp only [hc, Bool.not_false, if_true]
                  have := (List.dropWhile_sublist (fun x => !IsPathSeparator x)
                    (l := rest)).length_le
                  omega
                exact ih _ (s ++ ['/']) _ _ hl4 hdw (Or.inr ⟨s, rfl⟩)

/-- The result of `filepath.Clean` ends with the final element of its argument, when
that element is a real one. -/
theorem Clean_keeps_name (name : GoString) (hne : name ≠ [])
    (hsep : ∀ c ∈ name, c ≠ '/') (hdot : name ≠ ['.']) (hdd : name ≠ ['.', '.'])
    (q : GoString) (hq : q = [] ∨ ∃ q', q = q' ++ ['/']) :
    ∃ pre, Clean (q ++ name) = pre ++ name := by
  have key : ∀ out : GoString, (∃ pre, out = pre ++ name) →
      ∃ pre, (if out.length == 0 then ['.'] else out) = pre ++ name := by
    rintro out ⟨pre, rfl⟩
    have : (pre ++ name).length ≠ 0 := by
      simp [hne]
    simp only [beq_iff_eq, this, if_false]
    exact ⟨pre, rfl⟩
  match hp : q ++ name with
  | [] =>
    exact absurd (List.append_eq_nil.1 hp).2 hne
  | c :: rest =>
    unfold Clean
    dsimp only
    apply key
    split
    · rename_i hroot
      rcases hq with rfl | ⟨q', rfl⟩
      · exfalso
        rw [List.nil_append] at hp
        have hc : c ∈ name := by rw [hp]; simp
        have := hsep c hc
        simp [IsPathSeparator, this] at hroot
      · cases q' with
        | nil =>
          simp only [List.nil_append, List.singleton_append, List.cons.injEq] at hp
          exact cleanLoop_keeps_name true name hne hsep hdot hdd _ rest [] _ _
            (by simp) (by simp [hp.2]) (Or.inl rfl)
        | cons x q2 =>
          simp only [List.cons_append, List.cons.injEq] at hp
          exact cleanLoop_keeps_name true name hne hsep hdot hdd _ rest (q2 ++ ['/']) _ _
            (by simp) (by simp [← hp.2]) (Or.inr ⟨q2, rfl⟩)
    · exact cleanLoop_keeps_name false name hne hsep hdot hdd _ (c :: rest) q _ _
        (le_refl _) hp.symm hq

/-- The path built by `filepath.Join` for a directory entry ends with the entry name. -/
theorem Join_keeps_name (dir name : GoString) (hne : name ≠ [])
    (hsep : ∀ c ∈ name, c ≠ '/') (hdot : name ≠ ['.']) (hdd : name ≠ ['.', '.']) :
    ∃ pre, Join dir name = pre ++ name := by
  unfold Join
  by_cases hd : dir = []
  · subst hd
    simp only [bne_self_eq_false, Bool.false_eq_true, if_false]
    have : (name != []) = true := by simpa using hne
    simp only [this, if_true]
    simpa using Clean_keeps_name name hne hsep hdot hdd [] (Or.inl rfl)
  · have : (dir != []) = true := by simpa using hd
    simp only [this, if_true]
    have := Clean_keeps_name name hne hsep hdot hdd (dir ++ ['/']) (Or.inr ⟨dir, rfl⟩)
    simpa using this

/-! ## The worker -/

theorem convertPDFToSVG_snd (s : State) (pdfPath : GoString) (run : Option GoError) :
    (convertPDFToSVG s pdfPath run).2 = if run.isNone then svgPathOf pdfPath else [] := by
  cases run <;> simp [convertPDFToSVG]

theorem workerStep_results (s : State) (job : GoString × Outcome) :
    (workerStep s job).results =
      if jobOk job.2 then s.results ++ [svgPathOf job.1] else s.results := by
  obtain ⟨pdfPath, o⟩ := job
  obtain ⟨st, run, rem⟩ := o
  by_cases hx : fileExists st = true
  · cases run with
    | some e => simp [workerStep, jobOk, hx, convertPDFToSVG, State.print, State.call]
    | none =>
      cases rem with
      | some e =>
        simp [workerStep, jobOk, hx, convertPDFToSVG, State.print, State.call,
          svgPathOf_ne_nil]
      | none =>
        simp [workerStep, jobOk, hx, convertPDFToSVG, State.print, State.call,
          svgPathOf_ne_nil]
  · simp only [Bool.not_eq_true] at hx
    simp [workerStep, jobOk, hx, State.print, State.call]

theorem worker_results (jobs : List (GoString × Outcome)) : ∀ s : State,
    (pdfToSVGWorker s jobs).results =
      s.results ++ (jobs.filter (fun j => jobOk j.2)).map (fun j => svgPathOf j.1) := by
  induction jobs with
  | nil => intro s; simp [pdfToSVGWorker]
  | cons j jobs ih =>
    intro s
    have hstep : pdfToSVGWorker s (j :: jobs) = pdfToSVGWorker (workerStep s j) jobs := rfl
    rw [hstep, ih, workerStep_results]
    by_cases hj : jobOk j.2 = true
    · simp [hj]
    · simp [hj]

theorem workerStep_statPaths (s : State) (job : GoString × Outcome) :
    statPaths (workerStep s job).calls = statPaths s.calls ++ [job.1] := by
  obtain ⟨pdfPath, o⟩ := job
  obtain ⟨st, run, rem⟩ := o
  by_cases hx : fileExists st = true
  · cases run with
    | some e =>
      simp [workerStep, hx, convertPDFToSVG, State.print, State.call, statPaths]
    | none =>
      cases rem with
      | some e =>
        simp [workerStep, hx, convertPDFToSVG, State.print, State.call, statPaths,
          svgPathOf_ne_nil]
      | none =>
        simp [workerStep, hx, convertPDFToSVG, State.print, State.call, statPaths,
          svgPathOf_ne_nil]
  · simp only [Bool.not_eq_true] at hx
    simp [workerStep, hx, State.print, State.call, statPaths]

theorem worker_statPaths (jobs : List (GoString × Outcome)) : ∀ s : State,
    statPaths (pdfToSVGWorker s jobs).calls = statPaths s.calls ++ jobs.map Prod.fst := by
  induction jobs with
  | nil => intro s; simp [pdfToSVGWorker]
  | cons j jobs ih =>
    intro s
    have hstep : pdfToSVGWorker s (j :: jobs) = pdfToSVGWorker (workerStep s j) jobs := rfl
    rw [hstep, ih, workerStep_statPaths]
    simp

theorem workerStep_files (s : State) (pdfPath : GoString) (o : Outcome) :
    (workerStep s (pdfPath, o)).files =
      if jobOk o then
        (if svgPathOf pdfPath ∈ s.files then s.files
          else s.files ++ [svgPathOf pdfPath]).filter (fun f => f != pdfPath)
      else if fileExists o.stat && o.run.isNone then
        (if svgPathOf pdfPath ∈ s.files then s.files else s.files ++ [svgPathOf pdfPath])
      else s.files := by
  obtain ⟨st, run, rem⟩ := o
  by_cases hx : fileExists st = true
  · cases run with
    | some e => simp [workerStep, jobOk, hx, convertPDFToSVG, State.print, State.call]
    | none =>
      cases rem with
      | some e =>
        simp [workerStep, jobOk, hx, convertPDFToSVG, State.print, State.call,
          svgPathOf_ne_nil]
      | none =>
        simp [workerStep, jobOk, hx, convertPDFToSVG, State.print, State.call,
          svgPathOf_ne_nil]
  · simp only [Bool.not_eq_true] at hx
    simp [workerStep, jobOk, hx, State.print, State.call]

/-! ## The enumerator -/

theorem listPDFFiles_fold (table : Char → Char) (dirPath : GoString) (files : List FileInfo) :
    ∀ acc : List GoString,
      files.foldl
        (fun pdfFiles file =>
          if isPDFEntry table file then pdfFiles ++ [Join dirPath file.name] else pdfFiles)
        acc
      = acc ++ (files.filter (isPDFEntry table)).map (fun f => Join dirPath f.name) := by
  induction files with
  | nil => intro acc; simp
  | cons f files ih =>
    intro acc
    rw [List.foldl_cons, ih]
    by_cases hf : isPDFEntry table f = true
    · simp [hf]
    · simp [hf]

theorem listPDFFiles_ok (table : Char → Char) (dirPath : GoString) (files : List FileInfo) :
    listPDFFiles table dirPath (.ok files) =
      .ok ((files.filter (isPDFEntry table)).map (fun f => Join dirPath f.name)) := by
  unfold listPDFFiles
  simp only [listPDFFiles_fold, List.nil_append]

theorem lastElement_append (x t : GoString) (ht : ∀ c ∈ t, c ≠ '/') :
    lastElement (x ++ t) = lastElement x ++ t := by
  unfold lastElement
  have hall : ∀ a ∈ t.reverse, (fun c => !IsPathSeparator c) a = true := by
    intro a ha
    have := ht a (List.mem_reverse.1 ha)
    simp [IsPathSeparator, this]
  rw [List.reverse_append, List.takeWhile_append_of_pos hall, List.reverse_append,
    List.reverse_reverse]

theorem HasSuffix_append_left (x y suffix : GoString) (h : HasSuffix y suffix = true) :
    HasSuffix (x ++ y) suffix = true := by
  obtain ⟨b, rfl⟩ := (HasSuffix_iff _ _).1 h
  exact (HasSuffix_iff _ _).2 ⟨x ++ b, by simp⟩

/-- Every path the enumerator yields has a final element whose lower case ends in
`.pdf`, directory entry names holding no separator. -/
theorem enumerated_ends_pdf (table : Char → Char)
    (hT : ∀ c : Char, 127 < c.toNat → table c ≠ '.') (dirPath : GoString)
    (files : List FileInfo) (hnames : ∀ f ∈ files, ∀ c ∈ f.name, c ≠ '/')
    (paths : List GoString) (henum : listPDFFiles table dirPath (.ok files) = .ok paths) :
    ∀ p ∈ paths, HasSuffix (ToLower table (lastElement p)) pdfExt = true := by
  intro p hp
  rw [listPDFFiles_ok] at henum
  injection henum with henum
  rw [← henum] at hp
  obtain ⟨f, hf, rfl⟩ := List.mem_map.1 hp
  obtain ⟨hfin, hentry⟩ := List.mem_filter.1 hf
  have hsuf : HasSuffix (ToLower table f.name) pdfExt = true := by
    simp only [isPDFEntry, Bool.and_eq_true] at hentry
    exact hentry.2
  obtain ⟨a, t, hname, ht3, -⟩ := lower_pdf_suffix table hT _ hsuf
  have hlen : f.name.length = a.length + 4 := by
    rw [hname]; simp [ht3]
  have hne : f.name ≠ [] := by
    intro h; rw [h] at hlen; simp at hlen
  have hdot : f.name ≠ ['.'] := by
    intro h; rw [h] at hlen; simp at hlen
  have hdd : f.name ≠ ['.', '.'] := by
    intro h; rw [h] at hlen; simp at hlen
  obtain ⟨pre, hpre⟩ := Join_keeps_name dirPath f.name hne (hnames f hfin) hdot hdd
  rw [hpre, lastElement_append pre f.name (hnames f hfin)]
  unfold ToLower
  rw [List.map_append]
  exact HasSuffix_append_left _ _ _ hsuf

/-- Two paths with the same extension and the same derived output path are equal. -/
theorem svgPathOf_inj (p q : GoString) (hext : Ext p = Ext q)
    (h : svgPathOf p = svgPathOf q) : p = q := by
  unfold svgPathOf at h
  have h' := List.append_cancel_right h
  rw [← TrimSuffix_Ext_append p, ← TrimSuffix_Ext_append q, h', hext]

theorem sampleTable_keeps_dot : ∀ c : Char, 127 < c.toNat → sampleTable c ≠ '.' := by
  intro c hc
  unfold sampleTable
  split
  · decide
  · split
    · decide
    · intro h
      rw [h] at hc
      exact absurd hc (by decide)

/-! ## The properties of the specification -/

/-- C1, as amended: for a job whose source is in the file system, the source is
gone after the job if and only if the source was reported present, the converter
succeeded and the delete call succeeded; a job that fails at any of the three
steps leaves the source in place. -/
theorem source_deleted_iff_job_ok (s : State) (pdfPath : GoString) (o : Outcome)
    (hin : pdfPath ∈ s.files) :
    (pdfPath ∉ (workerStep s (pdfPath, o)).files ↔
        (fileExists o.stat = true ∧ o.run = none ∧ o.remove = none)) ∧
      ((fileExists o.stat = false ∨ o.run ≠ none ∨ o.remove ≠ none) →
        pdfPath ∈ (workerStep s (pdfPath, o)).files) := by
  have hok : jobOk o = true ↔ (fileExists o.stat = true ∧ o.run = none ∧ o.remove = none) := by
    simp [jobOk, Option.isNone_iff_eq_none, and_assoc]
  have hkeep : jobOk o = false → pdfPath ∈ (workerStep s (pdfPath, o)).files := by
    intro hj
    rw [workerStep_files]
    simp only [hj, Bool.false_eq_true, if_false]
    split
    · split
      · exact hin
      · exact List.mem_append_left _ hin
    · exact hin
  constructor
  · constructor
    · intro hgone
      by_contra hcon
      have hj : jobOk o = false := by
        cases hjo : jobOk o with
        | false => rfl
        | true => exact absurd (hok.1 hjo) hcon
      exact hgone (hkeep hj)
    · intro h
      rw [workerStep_files]
      simp only [hok.2 h, if_true]
      intro hmem
      have := (List.mem_filter.1 hmem).2
      simp at this
  · intro h
    apply hkeep
    cases hjo : jobOk o with
    | false => rfl
    | true =>
      obtain ⟨h1, h2, h3⟩ := hok.1 hjo
      rcases h with h | h | h
      · rw [h1] at h; exact absurd h (by decide)
      · exact absurd h2 h
      · exact absurd h3 h

/-- C1, witness: a job that goes through deletes `d/a.pdf`. -/
theorem source_deleted_iff_job_ok_witness :
    "d/a.pdf".toList ∉
      (workerStep (State.init ["d/a.pdf".toList]) ("d/a.pdf".toList, okOutcome)).files :=
  ((source_deleted_iff_job_ok (State.init ["d/a.pdf".toList]) "d/a.pdf".toList okOutcome
    (by decide)).1).2 ⟨rfl, rfl, rfl⟩

/-- C1, counterexample: the converter succeeds on `d/a.pdf` and the delete call is
refused; the conversion succeeded and the source is still in the file system, so
"deleted if and only if the conversion succeeded" fails. -/
theorem conversion_succeeded_source_kept :
    ¬ ("d/a.pdf".toList ∉
          (workerStep (State.init ["d/a.pdf".toList])
            ("d/a.pdf".toList, failedRemoveOutcome)).files ↔
        conversionSucceeded failedRemoveOutcome = true) := by
  decide

/-- C2: one worker run checks every job of its list, in order, and emits exactly the
derived output paths of the jobs whose source was reported present, whose
conversion succeeded and whose deletion succeeded, in job order; taking a failing
job out of the list changes nothing in what is emitted; and the value returned by
a successful conversion is never the empty failure sentinel. -/
theorem worker_emits_ok_jobs (s : State) (jobs : List (GoString × Outcome)) :
    statPaths (pdfToSVGWorker s jobs).calls = statPaths s.calls ++ jobs.map Prod.fst ∧
      (pdfToSVGWorker s jobs).results =
        s.results ++ (jobs.filter (fun j => jobOk j.2)).map (fun j => svgPathOf j.1) ∧
      (∀ l1 j l2, jobs = l1 ++ j :: l2 → jobOk j.2 = false →
        (pdfToSVGWorker s jobs).results = (pdfToSVGWorker s (l1 ++ l2)).results) ∧
      (∀ (st : State) (pdfPath : GoString) (run : Option GoError),
        (convertPDFToSVG st pdfPath run).2 = [] ↔ run ≠ none) := by
  refine ⟨worker_statPaths jobs s, worker_results jobs s, ?_, ?_⟩
  · intro l1 j l2 hjobs hj
    rw [hjobs, worker_results, worker_results]
    simp [List.filter_append, List.filter_cons, hj]
  · intro st pdfPath run
    rw [convertPDFToSVG_snd]
    cases run with
    | none => simp [svgPathOf_ne_nil]
    | some e => simp

/-- C2, witness: of five jobs, the second failing in the converter, the third
missing and the fourth failing in the deletion, the first and the fifth are emitted. -/
theorem worker_emits_ok_jobs_witness :
    (pdfToSVGWorker (State.init [])
        [("d/a.pdf".toList, okOutcome), ("d/b.pdf".toList, failedRunOutcome),
          ("d/c.pdf".toList, missingOutcome), ("d/d.pdf".toList, failedRemoveOutcome),
          ("d/e.pdf".toList, okOutcome)]).results
      = ["d/a.svg".toList, "d/e.svg".toList] := by
  rw [(worker_emits_ok_jobs (State.init [])
    [("d/a.pdf".toList, okOutcome), ("d/b.pdf".toList, failedRunOutcome),
      ("d/c.pdf".toList, missingOutcome), ("d/d.pdf".toList, failedRemoveOutcome),
      ("d/e.pdf".toList, okOutcome)]).2.1]
  decide

/-- C3: on a directory listing that was read, `listPDFFiles` returns without error,
in listing order, the paths `Join dirPath name` of the entries that are not
directories and whose lower-cased name ends in `.pdf`; a listing with no such entry
gives the empty list and no error. -/
theorem listPDFFiles_spec (table : Char → Char) (dirPath : GoString)
    (files : List FileInfo) :
    listPDFFiles table dirPath (.ok files) =
        .ok ((files.filter
          (fun f => !f.isDir && HasSuffix (ToLower table f.name) pdfExt)).map
            (fun f => Join dirPath f.name)) ∧
      ((∀ f ∈ files, f.isDir = true ∨ HasSuffix (ToLower table f.name) pdfExt = false) →
        listPDFFiles table dirPath (.ok files) = .ok []) := by
  have h := listPDFFiles_ok table dirPath files
  refine ⟨h, ?_⟩
  intro hnone
  rw [h]
  have hfilter : files.filter (isPDFEntry table) = [] := by
    rw [List.filter_eq_nil_iff]
    intro f hf
    rcases hnone f hf with hd | hs
    · simp [isPDFEntry, hd]
    · simp [isPDFEntry, hs]
  rw [hfilter]
  rfl

/-- C3, witness: a listing made of a text file and of a subdirectory named `x.pdf`
gives the empty list. -/
theorem listPDFFiles_spec_witness :
    listPDFFiles sampleTable "d".toList
        (.ok [{ name := "notes.txt".toList, isDir := false },
          { name := "x.pdf".toList, isDir := true }])
      = .ok [] :=
  (listPDFFiles_spec sampleTable "d".toList
    [{ name := "notes.txt".toList, isDir := false },
      { name := "x.pdf".toList, isDir := true }]).2 (by decide)

/-- C4: for a path whose final element ends, case-insensitively, in `.pdf`, the derived
output path is the path with its last four characters replaced by `.svg`, and it
is what `convertPDFToSVG` returns when the converter succeeds; every path the
enumerator yields is such a path.  The case table is taken to send no rune above
ASCII to the dot. -/
theorem convert_replaces_pdf_extension (table : Char → Char)
    (hT : ∀ c : Char, 127 < c.toNat → table c ≠ '.') :
    (∀ (pdfPath : GoString),
        HasSuffix (ToLower table (lastElement pdfPath)) pdfExt = true →
        4 ≤ pdfPath.length ∧
        svgPathOf pdfPath = pdfPath.take (pdfPath.length - 4) ++ svgExt ∧
        ∀ s : State,
          (convertPDFToSVG s pdfPath none).2 = pdfPath.take (pdfPath.length - 4) ++ svgExt) ∧
      (∀ (dirPath : GoString) (files : List FileInfo) (paths : List GoString),
        (∀ f ∈ files, ∀ c ∈ f.name, c ≠ '/') →
        listPDFFiles table dirPath (.ok files) = .ok paths →
        ∀ p ∈ paths, HasSuffix (ToLower table (lastElement p)) pdfExt = true) := by
  constructor
  · intro pdfPath h
    obtain ⟨h4, hsvg⟩ := svgPathOf_pdf table hT pdfPath h
    refine ⟨h4, hsvg, ?_⟩
    intro s
    rw [convertPDFToSVG_snd]
    simpa using hsvg
  · intro dirPath files paths hnames henum
    exact enumerated_ends_pdf table hT dirPath files hnames paths henum

/-- C4, witness: `d/report.PDF` gives `d/report.svg`. -/
theorem convert_replaces_pdf_extension_witness :
    (∀ c : Char, 127 < c.toNat → sampleTable c ≠ '.') ∧
      svgPathOf "d/report.PDF".toList = "d/report.svg".toList :=
  ⟨sampleTable_keeps_dot,
    (((convert_replaces_pdf_extension sampleTable sampleTable_keeps_dot).1
      "d/report.PDF".toList (by decide)).2).1⟩

/-- C7: for a path whose final element holds no dot, also when a directory component
holds one, `filepath.Ext` is empty, the extension stripping changes nothing and
the derived output path is the whole path followed by `.svg`. -/
theorem no_extension_appends_svg (pdfPath : GoString)
    (h : '.' ∉ lastElement pdfPath) :
    Ext pdfPath = [] ∧ TrimSuffix pdfPath (Ext pdfPath) = pdfPath ∧
      svgPathOf pdfPath = pdfPath ++ svgExt ∧
      ∀ s : State, (convertPDFToSVG s pdfPath none).2 = pdfPath ++ svgExt := by
  obtain ⟨d, hd, hsep⟩ := lastElement_split pdfPath
  have ht : ∀ c ∈ lastElement pdfPath, c ≠ '.' ∧ c ≠ '/' := by
    intro c hc
    refine ⟨?_, lastElement_no_sep pdfPath c hc⟩
    rintro rfl
    exact h hc
  have hext : Ext pdfPath = [] := by
    conv_lhs => rw [hd]
    exact Ext_nodot d _ ht hsep
  have hsvg : svgPathOf pdfPath = pdfPath ++ svgExt := by
    unfold svgPathOf
    rw [hext, TrimSuffix_nil]
  refine ⟨hext, by rw [hext, TrimSuffix_nil], hsvg, ?_⟩
  intro s
  rw [convertPDFToSVG_snd]
  simpa using hsvg

/-- C7, witness: `a.b/report` gives `a.b/report.svg`. -/
theorem no_extension_appends_svg_witness :
    '.' ∉ lastElement "a.b/report".toList ∧
      svgPathOf "a.b/report".toList = "a.b/report.svg".toList :=
  ⟨by decide, ((no_extension_appends_svg "a.b/report".toList (by decide)).2).2.1⟩

theorem drain_stdout (l : List GoString) : ∀ s : State,
    (l.foldl (fun st svgPath => st.print (successLine svgPath)) s).stdout =
      s.stdout ++ l.map successLine := by
  induction l with
  | nil => intro s; simp
  | cons r l ih =>
    intro s
    rw [List.foldl_cons, ih]
    simp [State.print]

/-- Where the directory check returns a boolean, `main` ends with exit code 1, no
worker started, no converter or delete call made and the file system untouched,
exactly when the directory argument is missing, the directory check answers
`false`, the directory cannot be read or no matching file is found; otherwise its
last printed line is the final message and it ends with exit code 0, whatever the
outcomes of the jobs. -/
theorem main_exit_codes (table : Char → Char) (args : List GoString)
    (statDir : StatReturn) (readDir : Except GoError (List FileInfo))
    (outcomes : GoString → Outcome) (fs : List GoString) (b : Bool)
    (hdir : dirExists statDir = .ok b) :
    (StartupFailure table args b readDir →
        (main table args statDir readDir outcomes (State.init fs)).2 = Termination.exit 1 ∧
        (main table args statDir readDir outcomes (State.init fs)).1.workers = 0 ∧
        (∀ c ∈ (main table args statDir readDir outcomes (State.init fs)).1.calls,
          c.isWork = false) ∧
        (main table args statDir readDir outcomes (State.init fs)).1.files = fs) ∧
      (¬ StartupFailure table args b readDir →
        (main table args statDir readDir outcomes (State.init fs)).2 = Termination.exit 0 ∧
        (main table args statDir readDir outcomes (State.init fs)).1.stdout.getLast?
          = some finalLine) ∧
      ((main table args statDir readDir outcomes (State.init fs)).2 = Termination.exit 1 ↔
        StartupFailure table args b readDir) := by
  unfold StartupFailure main
  by_cases ha : args.length < 2
  · simp [ha, State.print, State.init]
  · simp only [ha, if_false, false_or]
    rw [hdir]
    cases b with
    | false => simp [State.print, State.init, State.call, Call.isWork]
    | true =>
      cases readDir with
      | error e => simp [listPDFFiles, State.print, State.init, State.call, Call.isWork]
      | ok files =>
        rw [listPDFFiles_ok]
        cases (files.filter (isPDFEntry table)).map
            (fun f => Join (args.getD 1 []) f.name) with
        | nil => simp [State.print, State.init, State.call, Call.isWork]
        | cons f fl => simp [State.print]

/-- A directory holding one PDF whose conversion fails still ends with exit code 0. -/
theorem main_exit_codes_example :
    (main sampleTable ["prog".toList, "d".toList]
        (.ok { name := "d".toList, isDir := true })
        (.ok [{ name := "a.pdf".toList, isDir := false }])
        (fun _ => failedRunOutcome) (State.init ["d/a.pdf".toList])).2
      = Termination.exit 0 :=
  ((main_exit_codes sampleTable ["prog".toList, "d".toList]
    (.ok { name := "d".toList, isDir := true })
    (.ok [{ name := "a.pdf".toList, isDir := false }])
    (fun _ => failedRunOutcome) ["d/a.pdf".toList] true rfl).2.1
    (by
      unfold StartupFailure
      rintro (h | h | ⟨e, h⟩ | h)
      · exact absurd h (by decide)
      · exact absurd h (by decide)
      · exact absurd h (by simp)
      · rw [listPDFFiles_ok] at h
        exact absurd h (by simp [isPDFEntry, HasSuffix, ToLower, unicodeToLower, pdfExt]))).1

/-- C5, at the failing input: when `os.Stat` on the directory argument fails with an
error other than not-exist, such as permission denied, `main` ends in the
nil-dereference panic of `dirExists` with nothing printed, whether the directory
can be listed or not: the run neither exits with code 1 nor prints the final line
and exits with code 0. -/
theorem main_panics_on_stat_error :
    main sampleTable ["prog".toList, "d".toList] (.error permissionDenied)
        (.error permissionDenied) (fun _ => okOutcome) (State.init ["d/a.pdf".toList])
      = ((State.init ["d/a.pdf".toList]).call (Call.stat "d".toList),
          Termination.panicked Panic.nilDereference) ∧
      main sampleTable ["prog".toList, "d".toList] (.error permissionDenied)
        (.ok [{ name := "a.pdf".toList, isDir := false }]) (fun _ => okOutcome)
        (State.init ["d/a.pdf".toList])
      = ((State.init ["d/a.pdf".toList]).call (Call.stat "d".toList),
          Termination.panicked Panic.nilDereference) ∧
      (∀ (table : Char → Char) (args : List GoString) (e : GoError)
          (readDir : Except GoError (List FileInfo)) (outcomes : GoString → Outcome)
          (fs : List GoString),
        2 ≤ args.length → e.kind ≠ ErrKind.notExist →
          (main table args (.error e) readDir outcomes (State.init fs)).2
              = Termination.panicked Panic.nilDereference ∧
            (main table args (.error e) readDir outcomes (State.init fs)).2
              ≠ Termination.exit 1 ∧
            (main table args (.error e) readDir outcomes (State.init fs)).2
              ≠ Termination.exit 0 ∧
            (main table args (.error e) readDir outcomes (State.init fs)).1.stdout = []) := by
  refine ⟨rfl, rfl, ?_⟩
  intro table args e readDir outcomes fs hargs he
  have ha : ¬ args.length < 2 := by omega
  have hd : dirExists (.error e) = .error Panic.nilDereference := by
    simp [dirExists, StatReturn.err, StatReturn.info, IsNotExist, he]
  have hm : main table args (.error e) readDir outcomes (State.init fs)
      = ((State.init fs).call (Call.stat (args.getD 1 [])),
          Termination.panicked Panic.nilDereference) := by
    unfold main
    simp only [ha, if_false]
    rw [hd]
  rw [hm]
  refine ⟨rfl, ?_, ?_, rfl⟩
  · intro h; cases h
  · intro h; cases h

/-- C6, as amended: for the paths the enumerator yields for one directory, all jobs
succeeding, there are as many results as input paths; the results are pairwise
distinct if and only if the input paths are pairwise distinct once their last
four characters are dropped; and they are pairwise distinct when the input paths
are pairwise distinct and spell the extension alike. -/
theorem results_distinct_iff (table : Char → Char)
    (hT : ∀ c : Char, 127 < c.toNat → table c ≠ '.') (dirPath : GoString)
    (files : List FileInfo) (hnames : ∀ f ∈ files, ∀ c ∈ f.name, c ≠ '/')
    (paths : List GoString) (henum : listPDFFiles table dirPath (.ok files) = .ok paths)
    (fs : List GoString) (outcomes : GoString → Outcome)
    (hok : ∀ p ∈ paths, jobOk (outcomes p) = true) :
    ((pdfToSVGWorker (State.init fs) (paths.map (fun p => (p, outcomes p)))).results).length
        = paths.length ∧
      (((pdfToSVGWorker (State.init fs) (paths.map (fun p => (p, outcomes p)))).results).Nodup
        ↔ (paths.map (fun p => p.take (p.length - 4))).Nodup) ∧
      ((∀ p ∈ paths, ∀ q ∈ paths, Ext p = Ext q) → paths.Nodup →
        ((pdfToSVGWorker (State.init fs)
          (paths.map (fun p => (p, outcomes p)))).results).Nodup) := by
  have hfilter : (paths.map (fun p => (p, outcomes p))).filter (fun j => jobOk j.2)
      = paths.map (fun p => (p, outcomes p)) := by
    rw [List.filter_eq_self]
    intro j hj
    obtain ⟨p, hp, rfl⟩ := List.mem_map.1 hj
    exact hok p hp
  have hres : (pdfToSVGWorker (State.init fs) (paths.map (fun p => (p, outcomes p)))).results
      = paths.map svgPathOf := by
    rw [worker_results, hfilter]
    simp [State.init, Function.comp_def]
  have hstem : paths.map svgPathOf
      = (paths.map (fun p => p.take (p.length - 4))).map (fun x => x ++ svgExt) := by
    rw [List.map_map]
    apply List.map_congr_left
    intro p hp
    exact (svgPathOf_pdf table hT p
      (enumerated_ends_pdf table hT dirPath files hnames paths henum p hp)).2
  have hinj : Function.Injective (fun x : GoString => x ++ svgExt) := by
    intro x y hxy
    exact List.append_cancel_right hxy
  rw [hres]
  refine ⟨by simp, ?_, ?_⟩
  · rw [hstem]
    exact List.nodup_map_iff hinj
  · intro hext hnd
    exact List.Nodup.map_on (fun p hp q hq h => svgPathOf_inj p q (hext p hp q hq) h) hnd

/-- C6, witness: two files `a.pdf` and `b.pdf` give two distinct results. -/
theorem results_distinct_iff_witness :
    ((pdfToSVGWorker (State.init [])
        (["d/a.pdf".toList, "d/b.pdf".toList].map (fun p => (p, okOutcome)))).results).Nodup :=
  (results_distinct_iff sampleTable sampleTable_keeps_dot "d".toList
    [{ name := "a.pdf".toList, isDir := false }, { name := "b.pdf".toList, isDir := false }]
    (by decide) ["d/a.pdf".toList, "d/b.pdf".toList] rfl [] (fun _ => okOutcome)
    (by intro p _; rfl)).2.1.2 (by decide)

/-- C6, counterexample: a directory holding `a.PDF` and `a.pdf` is enumerated as two
distinct paths, both jobs succeed, and the two results are the same `d/a.svg`. -/
theorem case_variants_collide :
    listPDFFiles sampleTable "d".toList
        (.ok [{ name := "a.PDF".toList, isDir := false },
          { name := "a.pdf".toList, isDir := false }])
        = .ok ["d/a.PDF".toList, "d/a.pdf".toList] ∧
      ["d/a.PDF".toList, "d/a.pdf".toList].Nodup ∧
      ¬ ((pdfToSVGWorker (State.init ["d/a.PDF".toList, "d/a.pdf".toList])
          [("d/a.PDF".toList, okOutcome), ("d/a.pdf".toList, okOutcome)]).results).Nodup :=
  ⟨rfl, by decide, by decide⟩

/-- C8: the line reported for the result derived from an input path names the input
path without its extension and the derived output path: stripping `.svg` from the
derived path gives the input without its extension; and the coordinator prints
that line for every job that went through. -/
theorem success_line_names_input_base (pdfPath : GoString) :
    TrimSuffix (svgPathOf pdfPath) svgExt = TrimSuffix pdfPath (Ext pdfPath) ∧
      TrimSuffix pdfPath (Ext pdfPath) ++ Ext pdfPath = pdfPath ∧
      successLine (svgPathOf pdfPath) =
        "Successfully converted ".toList ++ TrimSuffix pdfPath (Ext pdfPath) ++ " to ".toList
          ++ (TrimSuffix pdfPath (Ext pdfPath) ++ ".svg".toList) ∧
      (∀ (fs files : List GoString) (n : Nat) (outcomes : GoString → Outcome),
        (processPDFsConcurrently (State.init fs) files (n + 1) outcomes).stdout =
          (pdfToSVGWorker { State.init fs with workers := n + 1 }
            (files.map (fun f => (f, outcomes f)))).stdout
          ++ (files.filter (fun f => jobOk (outcomes f))).map
              (fun f => successLine (svgPathOf f))) := by
  have h1 : TrimSuffix (svgPathOf pdfPath) svgExt = TrimSuffix pdfPath (Ext pdfPath) := by
    unfold svgPathOf
    exact TrimSuffix_append _ _
  refine ⟨h1, TrimSuffix_Ext_append pdfPath, ?_, ?_⟩
  · unfold successLine
    rw [h1]
    rfl
  · intro fs files n outcomes
    unfold processPDFsConcurrently
    simp only [Nat.succ_ne_zero, State.init, Nat.zero_add, beq_iff_eq, if_false,
      List.length_nil, List.drop_zero]
    rw [drain_stdout, worker_results]
    simp [List.filter_map, Function.comp_def]

/-- C8, witness: the line for `d/report.pdf`. -/
theorem success_line_names_input_base_witness :
    successLine (svgPathOf "d/report.pdf".toList)
      = "Successfully converted d/report to d/report.svg".toList := by
  rw [(success_line_names_input_base "d/report.pdf".toList).2.2.1]
  decide

/-- C10, at the failing input: when `os.Stat` fails with an error other than
not-exist, such as permission denied, `dirExists` dereferences the nil file info
and panics instead of returning a boolean. -/
theorem dirExists_panics_on_stat_error :
    dirExists (.error { kind := ErrKind.permission, text := "permission denied".toList })
        = .error Panic.nilDereference ∧
      (∀ e : GoError, e.kind ≠ ErrKind.notExist →
        dirExists (.error e) = .error Panic.nilDereference) ∧
      (∀ e : GoError, e.kind = ErrKind.notExist → dirExists (.error e) = .ok false) ∧
      (∀ info : FileInfo, dirExists (.ok info) = .ok info.isDir) := by
  refine ⟨rfl, ?_, ?_, ?_⟩
  · intro e he
    simp [dirExists, StatReturn.err, StatReturn.info, IsNotExist, he]
  · intro e he
    simp [dirExists, StatReturn.err, IsNotExist, he]
  · intro info
    simp [dirExists, StatReturn.err, StatReturn.info, IsNotExist]

end PDFGraphicsToSVG
